import Mathlib

/-!
Shallow embedding of `operations.py` from the 3PU point-cloud repository:
batched K-nearest-neighbor grouping, furthest-point sampling, indexed
gather/scatter with its gradient rule, and point-batch normalization.

Coordinates and feature values are modelled as rationals (reals for the
normalization routine, which takes square roots); tensors become functions
out of `Fin`; the per-batch loops of the Python code become per-batch-element
functions.  The compiled kernels the Python file dispatches to
(`sampling.furthest_sampling`, `sampling.gather_forward`,
`sampling.gather_backward`) and the faiss exact L2 search are not part of the
provided source; where a definition models one of them it is written from the
specification's description and marked `Modelled from the spec`.
-/

namespace ThreePU

/-- Squared Euclidean distance between two 3D points (rational coordinates).
The domain fixes the coordinate dimension at 3, as the repository does. -/
def sqd3 (p q : Fin 3 → ℚ) : ℚ :=
  (p 0 - q 0) ^ 2 + (p 1 - q 1) ^ 2 + (p 2 - q 2) ^ 2

/-! ## Nearest-neighbor search model

Modelled from the spec: the exact search kernel invoked through
`search_index_pytorch` (faiss `GpuIndexFlatL2.search`) is external compiled
code, absent from the source file.  Per spec §4.1 it computes, for each query,
the exact squared Euclidean distance to every reference point and returns the
k smallest, ties broken by ascending original reference index. -/

/-- Ordering on (squared distance, reference index) pairs: strictly smaller
distance first, exact distance ties broken by ascending reference index. -/
def distIdxLe {N : ℕ} (a b : ℚ × Fin N) : Prop :=
  a.1 < b.1 ∨ (a.1 = b.1 ∧ a.2 ≤ b.2)

instance {N : ℕ} : DecidableRel (@distIdxLe N) := fun a b => by
  unfold distIdxLe; infer_instance

instance {N : ℕ} : IsTotal (ℚ × Fin N) distIdxLe := by
  constructor
  intro a b
  rcases lt_trichotomy a.1 b.1 with h | h | h
  · exact Or.inl (Or.inl h)
  · rcases le_total a.2 b.2 with h2 | h2
    · exact Or.inl (Or.inr ⟨h, h2⟩)
    · exact Or.inr (Or.inr ⟨h.symm, h2⟩)
  · exact Or.inr (Or.inl h)

instance {N : ℕ} : IsTrans (ℚ × Fin N) distIdxLe := by
  constructor
  rintro a b c (hab | ⟨hab, hab2⟩) (hbc | ⟨hbc, hbc2⟩)
  · exact Or.inl (hab.trans hbc)
  · exact Or.inl (hbc ▸ hab)
  · exact Or.inl (hab ▸ hbc)
  · exact Or.inr ⟨hab.trans hbc, hab2.trans hbc2⟩

/-- All (squared distance, index) pairs of one query against the reference
set, in ascending reference-index order. -/
def knnPairs {N : ℕ} (pts : Fin N → Fin 3 → ℚ) (q : Fin 3 → ℚ) :
    List (ℚ × Fin N) :=
  (List.finRange N).map (fun i => (sqd3 q (pts i), i))

/-- The reference set sorted by (squared distance to the query, index). -/
def knnSorted {N : ℕ} (pts : Fin N → Fin 3 → ℚ) (q : Fin 3 → ℚ) :
    List (ℚ × Fin N) :=
  List.insertionSort distIdxLe (knnPairs pts q)

/-- Result of one query: the k nearest (distance, index) pairs, ascending. -/
def knnQuery {N : ℕ} (pts : Fin N → Fin 3 → ℚ) (q : Fin 3 → ℚ) (k : ℕ) :
    List (ℚ × Fin N) :=
  (knnSorted pts q).take k

/-- `KNN.forward`: per batch element, run the search kernel for every query
point; returns the stacked `(index_batch, distance_batch)` in that order. -/
def knnForward {B M N : ℕ} (k : ℕ)
    (query : Fin B → Fin M → Fin 3 → ℚ)
    (points : Fin B → Fin N → Fin 3 → ℚ) :
    (Fin B → Fin M → List (Fin N)) × (Fin B → Fin M → List ℚ) :=
  (fun b m => (knnQuery (points b) (query b m) k).map Prod.snd,
   fun b m => (knnQuery (points b) (query b m) k).map Prod.fst)

/-! ## Furthest-point sampling model

Wrapper code from the source: `FurthestPointSampling.forward` allocates the
running-minimum-distance buffer filled with the literal `1e10`
(`torch.full([B, N], 1e10)`) and starts at point index 0.  The loop itself
(`sampling.furthest_sampling`) is a compiled kernel absent from the source;
its body below is modelled from the spec: repeatedly fold the distance to the
last selected point into the running minimum, then select the unselected
point with the maximum running minimum, ties broken by smallest index. -/

/-- The value the source writes into the running-minimum buffer:
`torch.full([B, N], 1e10)` (exactly representable in float32). -/
def fpsInitVal : ℚ := 10 ^ 10

/-- The initial running-minimum buffer of `FurthestPointSampling.forward`,
one value per point of each batch element, embedded into `WithTop ℚ` (so that
"+infinity" is expressible as `⊤`). -/
def fpsTempInit (B N : ℕ) : Fin B → Fin N → WithTop ℚ :=
  fun _ _ => (fpsInitVal : ℚ)

/-- Earliest element of the list attaining the maximal score: the head is
kept unless a later element scores strictly higher. -/
def pickBest {N : ℕ} (score : Fin N → ℚ) : List (Fin N) → Option (Fin N)
  | [] => none
  | i :: rest =>
    match pickBest score rest with
    | none => some i
    | some j => if score i < score j then some j else some i

/-- Modelled from the spec: the selection step of the furthest-sampling
kernel.  Among the points not yet selected (in ascending index order), pick
the one with the maximum running minimum distance, ties by smallest index. -/
def pickNext {N : ℕ} (score : Fin N → ℚ) (sel : List (Fin N)) :
    Option (Fin N) :=
  pickBest score ((List.finRange N).filter (fun i => decide (i ∉ sel)))

/-- Modelled from the spec: the iteration of the furthest-sampling kernel.
`mind` is the running minimum squared distance to the selected set, `sel` the
already-selected indices, `last` the most recently selected point, `k` the
number of points still to select. -/
def fpsAux {n : ℕ} (pts : Fin (n + 1) → Fin 3 → ℚ) :
    (Fin (n + 1) → ℚ) → List (Fin (n + 1)) → Fin (n + 1) → ℕ →
      List (Fin (n + 1))
  | _, _, _, 0 => []
  | mind, sel, last, k + 1 =>
    let mind' := fun i => min (mind i) (sqd3 (pts i) (pts last))
    match pickNext mind' sel with
    | none => []
    | some j => j :: fpsAux pts mind' (j :: sel) j k

/-- Furthest-point sampling of `m` indices: point 0 is selected first
(deterministic seed), then the greedy loop runs; the running minimum starts
at the source's `1e10` fill value. -/
def fps {n : ℕ} (pts : Fin (n + 1) → Fin 3 → ℚ) (m : ℕ) :
    List (Fin (n + 1)) :=
  match m with
  | 0 => []
  | m' + 1 => 0 :: fpsAux pts (fun _ => fpsInitVal) [0] 0 m'

/-- The line of 5 points at x-coordinates 0,1,2,3,4, padded to 3D with
zeros: the spec's concrete furthest-point-sampling scenario. -/
def linePts : Fin 5 → Fin 3 → ℚ :=
  fun i d => if d = 0 then (i.val : ℚ) else 0

/-! ## Error models for the checked entry points -/

/-- Failure of the nearest-neighbor search entry point. -/
inductive KNNError where
  | insufficientPoints
deriving DecidableEq

/-- Modelled from the spec: the `k ≤ N` precondition of NearestNeighborSearch
(`InsufficientPointsError` if `k > N`, spec §4.1).  The provided source never
compares `k` with `N` itself (`group_knn` only asserts
`num_points ≥ query.size(1)`); the search call it delegates to is external
compiled code absent from the source. -/
def knnSearchChecked {N : ℕ} (k : ℕ) (pts : Fin N → Fin 3 → ℚ)
    (q : Fin 3 → ℚ) : Except KNNError (List (ℚ × Fin N)) :=
  if k ≤ N then Except.ok (knnQuery pts q k)
  else Except.error KNNError.insufficientPoints

/-- Failure of the furthest-point sampling entry point. -/
inductive FPSError where
  | invalidShape
  | insufficientPoints
deriving DecidableEq

/-- Validation of `furthest_point_sample`.  The shape check is from the
source (`assert xyz.size(2) == 3` after the layout transpose); the
`m ≤ N` precondition is modelled from the spec (`InsufficientPointsError`
if `m > N`, spec §4.2) since the sampling loop (`sampling.furthest_sampling`)
is a compiled kernel absent from the source. -/
def furthestPointSampleChecked {n : ℕ} (lastAxis m : ℕ)
    (pts : Fin (n + 1) → Fin 3 → ℚ) :
    Except FPSError (List (Fin (n + 1))) :=
  if lastAxis ≠ 3 then Except.error FPSError.invalidShape
  else if m ≤ n + 1 then Except.ok (fps pts m)
  else Except.error FPSError.insufficientPoints

/-! ## IndexedGather model

`GatherFunction.forward` and the accumulation loop of
`GatherFunction.backward` dispatch to compiled kernels
(`sampling.gather_forward`, `sampling.gather_backward`) absent from the
source; they are modelled from spec §4.3.  The zero initialization of
`grad_features` (`torch.zeros`) is from the source. -/

/-- Modelled from the spec: forward gather,
`output[b,:,j] = features[b,:,index[b,j]]`. -/
def gatherForward {B C N M : ℕ} (features : Fin B → Fin C → Fin N → ℚ)
    (idx : Fin B → Fin M → Fin N) : Fin B → Fin C → Fin M → ℚ :=
  fun b c j => features b c (idx b j)

/-- Modelled from the spec: backward gather (scatter-add).  Starting from the
all-zeros `grad_features` (the source's `torch.zeros`), every output position
`j` adds `grad_output[b,:,j]` into `grad_features[b,:,index[b,j]]`. -/
def gatherBackward {B C N M : ℕ} (idx : Fin B → Fin M → Fin N)
    (gout : Fin B → Fin C → Fin M → ℚ) : Fin B → Fin C → Fin N → ℚ :=
  (List.finRange M).foldl
    (fun acc j => fun b c n =>
      if idx b j = n then acc b c n + gout b c j else acc b c n)
    (fun _ _ _ => 0)

/-- The pair `GatherFunction.backward` hands to the autodiff engine:
a gradient for `features` and `None` for `idx`
(source: `return grad_features, None`). -/
def gatherBackwardReturn {B C N M : ℕ} (idx : Fin B → Fin M → Fin N)
    (gout : Fin B → Fin C → Fin M → ℚ) :
    (Fin B → Fin C → Fin N → ℚ) × Option (Fin B → Fin M → ℚ) :=
  (gatherBackward idx gout, none)

/-! ## Autodiff registration data

The source's only interface to the autodiff engine: `KNN.forward` calls
`ctx.mark_non_differentiable(index_batch, distance_batch)`,
`FurthestPointSampling.forward` calls `ctx.mark_non_differentiable(idx)`,
and `GatherFunction` supplies the backward rule above. -/

/-- How an autograd output is classified for the differentiation engine. -/
inductive OutputGradClass where
  | markedNonDifferentiable
  | hasBackward
deriving DecidableEq

/-- Classification of `KNN.forward`'s two outputs
`(index_batch, distance_batch)`, from
`ctx.mark_non_differentiable(index_batch, distance_batch)`. -/
def knnForwardOutputClasses : OutputGradClass × OutputGradClass :=
  (OutputGradClass.markedNonDifferentiable,
   OutputGradClass.markedNonDifferentiable)

/-- Classification of `FurthestPointSampling.forward`'s index output, from
`ctx.mark_non_differentiable(idx)`. -/
def fpsForwardOutputClass : OutputGradClass :=
  OutputGradClass.markedNonDifferentiable

/-- Classification of `GatherFunction`'s output: a backward rule is
registered (`GatherFunction.backward`). -/
def gatherOutputClass : OutputGradClass := OutputGradClass.hasBackward

/-! ## Neighborhood grouping (`group_knn`) -/

/-- Core of `group_knn` on channel-last (`B×M×C` / `B×N×C`) inputs: run the
search, then gather each neighbor's coordinates
(`torch.gather(points_expanded, 2, index_batch_expanded)`).  The `unique`
argument is accepted, exactly as in the source. -/
def groupKNN {B M N : ℕ} (k : ℕ) (queryT : Fin B → Fin M → Fin 3 → ℚ)
    (pointsT : Fin B → Fin N → Fin 3 → ℚ) (unique : Bool) :
    (Fin B → Fin M → List (Fin 3 → ℚ)) × (Fin B → Fin M → List (Fin N)) ×
      (Fin B → Fin M → List ℚ) :=
  let idx := (knnForward k queryT pointsT).1
  let dist := (knnForward k queryT pointsT).2
  (fun b m => (idx b m).map (fun i => pointsT b i), idx, dist)

/-- `group_knn` with `NCHW = True`: transpose the channel-first inputs to
channel-last, run the core, and permute the grouped neighbors back to
`B×C×M×k`.  The index and distance outputs are returned as produced. -/
def groupKNN_NCHW {B M N : ℕ} (k : ℕ) (query : Fin B → Fin 3 → Fin M → ℚ)
    (points : Fin B → Fin 3 → Fin N → ℚ) (unique : Bool) :
    (Fin B → Fin 3 → Fin M → List ℚ) × (Fin B → Fin M → List (Fin N)) ×
      (Fin B → Fin M → List ℚ) :=
  let core := groupKNN k (fun b m d => query b d m) (fun b i d => points b d i)
    unique
  (fun b c m => (core.1 b m).map (fun v => v c), core.2.1, core.2.2)

/-! ## The public `furthest_point_sample` wrapper -/

/-- Modelled from the spec: `gather_points` (the forward gather kernel)
applied to the per-batch list of sampled indices, producing the sampled
coordinates channel-first. -/
def gatherPointsList {B N : ℕ} (features : Fin B → Fin 3 → Fin N → ℚ)
    (idx : Fin B → List (Fin N)) : Fin B → Fin 3 → List ℚ :=
  fun b c => (idx b).map (fun i => features b c i)

/-- `furthest_point_sample` with `NCHW = True`: transpose the channel-first
input to `B×N×3`, sample, then gather the sampled coordinates from the
channel-first layout (`gather_points(xyz.transpose(2, 1), idx)`). -/
def furthestPointSampleNCHW {B n : ℕ} (xyz : Fin B → Fin 3 → Fin (n + 1) → ℚ)
    (m : ℕ) : (Fin B → List (Fin (n + 1))) × (Fin B → Fin 3 → List ℚ) :=
  let pts := fun b i d => xyz b d i
  let idx := fun b => fps (pts b) m
  (idx, gatherPointsList xyz idx)

/-- `furthest_point_sample` with `NCHW = False`: the channel-last input is
used directly, and the gathered channel-first coordinates are transposed
back to channel-last (`sampled_pc.transpose(2, 1)`). -/
def furthestPointSampleNLC {B n : ℕ} (xyz : Fin B → Fin (n + 1) → Fin 3 → ℚ)
    (m : ℕ) : (Fin B → List (Fin (n + 1))) × (Fin B → List (Fin 3 → ℚ)) :=
  let idx := fun b => fps (xyz b) m
  (idx, fun b => (idx b).map (fun i => fun d => xyz b i d))

/-! ## Point-batch normalization (`normalize_point_batch`)

Real-valued: the routine takes square roots.  `centroid` is the mean along
the point axis, `furthest` the maximum point norm after centering; the cloud
is centered and divided by `furthest`.  The channel-last (`NCHW=False`,
point axis 1) and channel-first (`NCHW=True`, point axis 2) variants mirror
the source's two axis choices. -/

/-- Mean along the point axis, channel-last layout. -/
noncomputable def centroidCL {B n : ℕ} (p : Fin B → Fin (n + 1) → Fin 3 → ℝ) :
    Fin B → Fin 3 → ℝ :=
  fun b d => (∑ i, p b i d) / (n + 1)

/-- The centered cloud `pc - centroid`, channel-last layout. -/
noncomputable def centeredCL {B n : ℕ} (p : Fin B → Fin (n + 1) → Fin 3 → ℝ) :
    Fin B → Fin (n + 1) → Fin 3 → ℝ :=
  fun b i d => p b i d - centroidCL p b d

/-- Euclidean norm of a centered point
(`torch.sqrt(torch.sum(pc ** 2, dim=dim_axis))`), channel-last layout. -/
noncomputable def ptNormCL {B n : ℕ} (p : Fin B → Fin (n + 1) → Fin 3 → ℝ) :
    Fin B → Fin (n + 1) → ℝ :=
  fun b i => Real.sqrt (∑ d, centeredCL p b i d ^ 2)

/-- Maximum centered-point norm per batch element, channel-last layout. -/
noncomputable def furthestCL {B n : ℕ}
    (p : Fin B → Fin (n + 1) → Fin 3 → ℝ) : Fin B → ℝ :=
  fun b => Finset.univ.sup' Finset.univ_nonempty (ptNormCL p b)

/-- `normalize_point_batch` with `NCHW=False`: returns the normalized cloud,
the centroid and the furthest distance. -/
noncomputable def normalizeCL {B n : ℕ}
    (p : Fin B → Fin (n + 1) → Fin 3 → ℝ) :
    (Fin B → Fin (n + 1) → Fin 3 → ℝ) × (Fin B → Fin 3 → ℝ) × (Fin B → ℝ) :=
  (fun b i d => centeredCL p b i d / furthestCL p b, centroidCL p,
   furthestCL p)

/-- Mean along the point axis (axis 2), channel-first layout. -/
noncomputable def centroidCF {B n : ℕ} (q : Fin B → Fin 3 → Fin (n + 1) → ℝ) :
    Fin B → Fin 3 → ℝ :=
  fun b d => (∑ i, q b d i) / (n + 1)

/-- The centered cloud, channel-first layout. -/
noncomputable def centeredCF {B n : ℕ} (q : Fin B → Fin 3 → Fin (n + 1) → ℝ) :
    Fin B → Fin 3 → Fin (n + 1) → ℝ :=
  fun b d i => q b d i - centroidCF q b d

/-- Euclidean norm of a centered point (sum over axis 1), channel-first
layout. -/
noncomputable def ptNormCF {B n : ℕ} (q : Fin B → Fin 3 → Fin (n + 1) → ℝ) :
    Fin B → Fin (n + 1) → ℝ :=
  fun b i => Real.sqrt (∑ d, centeredCF q b d i ^ 2)

/-- Maximum centered-point norm per batch element, channel-first layout. -/
noncomputable def furthestCF {B n : ℕ}
    (q : Fin B → Fin 3 → Fin (n + 1) → ℝ) : Fin B → ℝ :=
  fun b => Finset.univ.sup' Finset.univ_nonempty (ptNormCF q b)

/-- `normalize_point_batch` with `NCHW=True`. -/
noncomputable def normalizeCF {B n : ℕ}
    (q : Fin B → Fin 3 → Fin (n + 1) → ℝ) :
    (Fin B → Fin 3 → Fin (n + 1) → ℝ) × (Fin B → Fin 3 → ℝ) × (Fin B → ℝ) :=
  (fun b d i => centeredCF q b d i / furthestCF q b, centroidCF q,
   furthestCF q)

/-- The concrete two-point cloud used to witness the normalization claims:
one batch element with points `(0,0,0)` and `(2,0,0)`. -/
noncomputable def twoPts : Fin 1 → Fin 2 → Fin 3 → ℝ :=
  fun _ i d => if i = 0 then 0 else if d = 0 then 2 else 0

/-! ## Lemmas about the furthest-point sampling model -/

theorem pickBest_eq_none_iff {N : ℕ} (score : Fin N → ℚ) (l : List (Fin N)) :
    pickBest score l = none ↔ l = [] := by
  cases l with
  | nil => simp [pickBest]
  | cons i rest =>
    simp only [pickBest]
    cases h : pickBest score rest with
    | none => simp
    | some j =>
      constructor
      · intro hc
        by_cases hij : score i < score j <;> simp [hij] at hc
      · intro hc
        exact absurd hc (List.cons_ne_nil i rest)

theorem pickBest_mem {N : ℕ} {score : Fin N → ℚ} {l : List (Fin N)}
    {j : Fin N} (h : pickBest score l = some j) : j ∈ l := by
  induction l generalizing j with
  | nil => simp [pickBest] at h
  | cons i rest ih =>
    simp only [pickBest] at h
    cases hr : pickBest score rest with
    | none =>
      rw [hr] at h
      simp at h
      simp [h]
    | some jr =>
      rw [hr] at h
      by_cases hij : score i < score jr <;> simp [hij] at h
      · exact h ▸ List.mem_cons_of_mem i (ih hr)
      · simp [h]

theorem pickBest_spec {N : ℕ} {score : Fin N → ℚ} {l : List (Fin N)}
    {j : Fin N} (hl : l.Pairwise (· < ·)) (h : pickBest score l = some j) :
    ∀ i ∈ l, score i ≤ score j ∧ (score i = score j → j ≤ i) := by
  induction l generalizing j with
  | nil => simp [pickBest] at h
  | cons a rest ih =>
    have ha : ∀ x ∈ rest, a < x := (List.pairwise_cons.mp hl).1
    have hrest : rest.Pairwise (· < ·) := (List.pairwise_cons.mp hl).2
    simp only [pickBest] at h
    cases hr : pickBest score rest with
    | none =>
      rw [hr] at h
      simp at h
      have : rest = [] := (pickBest_eq_none_iff score rest).mp hr
      subst this
      intro i hi
      simp at hi
      subst hi
      exact h ▸ ⟨le_refl _, fun _ => le_refl _⟩
    | some jr =>
      rw [hr] at h
      have hjr := ih hrest hr
      by_cases hij : score a < score jr
      · simp [hij] at h
        subst h
        intro i hi
        rcases List.mem_cons.mp hi with rfl | hi
        · exact ⟨le_of_lt hij, fun he => absurd he (ne_of_lt hij)⟩
        · exact hjr i hi
      · simp [hij] at h
        subst h
        push_neg at hij
        intro i hi
        rcases List.mem_cons.mp hi with rfl | hi
        · exact ⟨le_refl _, fun _ => le_refl _⟩
        · refine ⟨(hjr i hi).1.trans hij, fun _ => le_of_lt (ha i hi)⟩

theorem pickNext_notMem {N : ℕ} {score : Fin N → ℚ} {sel : List (Fin N)}
    {j : Fin N} (h : pickNext score sel = some j) : j ∉ sel := by
  have := pickBest_mem h
  simp only [List.mem_filter, decide_eq_true_eq] at this
  exact this.2

theorem pickNext_spec {N : ℕ} {score : Fin N → ℚ} {sel : List (Fin N)}
    {j : Fin N} (h : pickNext score sel = some j) :
    j ∉ sel ∧ ∀ i : Fin N, i ∉ sel →
      score i ≤ score j ∧ (score i = score j → j ≤ i) := by
  refine ⟨pickNext_notMem h, ?_⟩
  intro i hi
  have hpw : ((List.finRange N).filter (fun i => decide (i ∉ sel))).Pairwise
      (· < ·) :=
    (List.pairwise_lt_finRange N).sublist (List.filter_sublist _)
  refine pickBest_spec hpw h i ?_
  simp only [List.mem_filter, decide_eq_true_eq]
  exact ⟨List.mem_finRange i, hi⟩

theorem pickNext_isSome {N : ℕ} (score : Fin N → ℚ) (sel : List (Fin N))
    (hlen : sel.length < N) : ∃ j, pickNext score sel = some j := by
  have hex : ∃ i : Fin N, i ∉ sel := by
    by_contra hc
    push_neg at hc
    have hsub : (List.finRange N) ⊆ sel := fun i _ => hc i
    have := List.Subperm.length_le
      (List.subperm_of_subset (List.nodup_finRange N) hsub)
    rw [List.length_finRange] at this
    omega
  obtain ⟨i, hi⟩ := hex
  have hmem : i ∈ (List.finRange N).filter (fun i => decide (i ∉ sel)) := by
    simp only [List.mem_filter, decide_eq_true_eq]
    exact ⟨List.mem_finRange i, hi⟩
  cases hp : pickNext score sel with
  | none =>
    have := (pickBest_eq_none_iff score _).mp hp
    rw [this] at hmem
    simp at hmem
  | some j => exact ⟨j, rfl⟩

theorem fpsAux_notMem_sel {n : ℕ} (pts : Fin (n + 1) → Fin 3 → ℚ) :
    ∀ (k : ℕ) (mind : Fin (n + 1) → ℚ) (sel : List (Fin (n + 1)))
      (last : Fin (n + 1)) (x : Fin (n + 1)),
      x ∈ fpsAux pts mind sel last k → x ∉ sel := by
  intro k
  induction k with
  | zero => intro mind sel last x hx; simp [fpsAux] at hx
  | succ k ih =>
    intro mind sel last x hx
    simp only [fpsAux] at hx
    cases hp : pickNext (fun i => min (mind i) (sqd3 (pts i) (pts last)))
        sel with
    | none => rw [hp] at hx; simp at hx
    | some j =>
      rw [hp] at hx
      rcases List.mem_cons.mp hx with rfl | hx
      · exact pickNext_notMem hp
      · intro hxs
        exact (ih _ _ _ _ hx) (List.mem_cons_of_mem j hxs)

theorem fpsAux_nodup {n : ℕ} (pts : Fin (n + 1) → Fin 3 → ℚ) :
    ∀ (k : ℕ) (mind : Fin (n + 1) → ℚ) (sel : List (Fin (n + 1)))
      (last : Fin (n + 1)),
      (fpsAux pts mind sel last k).Nodup := by
  intro k
  induction k with
  | zero => intro mind sel last; simp [fpsAux]
  | succ k ih =>
    intro mind sel last
    simp only [fpsAux]
    cases hp : pickNext (fun i => min (mind i) (sqd3 (pts i) (pts last)))
        sel with
    | none => simp
    | some j =>
      refine List.nodup_cons.mpr ⟨?_, ih _ _ _⟩
      intro hj
      exact (fpsAux_notMem_sel pts _ _ _ _ _ hj) (List.mem_cons_self j sel)

theorem fpsAux_length {n : ℕ} (pts : Fin (n + 1) → Fin 3 → ℚ) :
    ∀ (k : ℕ) (mind : Fin (n + 1) → ℚ) (sel : List (Fin (n + 1)))
      (last : Fin (n + 1)),
      k + sel.length ≤ n + 1 → (fpsAux pts mind sel last k).length = k := by
  intro k
  induction k with
  | zero => intro mind sel last _; simp [fpsAux]
  | succ k ih =>
    intro mind sel last hk
    simp only [fpsAux]
    obtain ⟨j, hj⟩ := pickNext_isSome
      (fun i => min (mind i) (sqd3 (pts i) (pts last))) sel
      (by omega)
    rw [hj]
    simp only [List.length_cons]
    rw [ih _ (j :: sel) j (by simp; omega)]

theorem fpsAux_take {n : ℕ} (pts : Fin (n + 1) → Fin 3 → ℚ) :
    ∀ (j k : ℕ) (mind : Fin (n + 1) → ℚ) (sel : List (Fin (n + 1)))
      (last : Fin (n + 1)), j ≤ k →
      (fpsAux pts mind sel last k).take j = fpsAux pts mind sel last j := by
  intro j
  induction j with
  | zero => intro k mind sel last _; simp [fpsAux]
  | succ j ih =>
    intro k mind sel last hj
    obtain ⟨k, rfl⟩ : ∃ m, k = m + 1 := ⟨k - 1, by omega⟩
    simp only [fpsAux]
    cases hp : pickNext (fun i => min (mind i) (sqd3 (pts i) (pts last)))
        sel with
    | none => simp
    | some jj =>
      rw [List.take_succ_cons, ih k _ _ _ (by omega)]

theorem fps_length {n : ℕ} (pts : Fin (n + 1) → Fin 3 → ℚ) {m : ℕ}
    (hm : m ≤ n + 1) : (fps pts m).length = m := by
  cases m with
  | zero => rfl
  | succ m =>
    simp only [fps, List.length_cons]
    rw [fpsAux_length pts m _ [0] 0 (by simp; omega)]

theorem fps_nodup {n : ℕ} (pts : Fin (n + 1) → Fin 3 → ℚ) (m : ℕ) :
    (fps pts m).Nodup := by
  cases m with
  | zero => simp [fps]
  | succ m =>
    simp only [fps]
    refine List.nodup_cons.mpr ⟨?_, fpsAux_nodup pts m _ [0] 0⟩
    intro h
    exact (fpsAux_notMem_sel pts m _ [0] 0 0 h) (List.mem_singleton.mpr rfl)

theorem fps_take {n : ℕ} (pts : Fin (n + 1) → Fin 3 → ℚ) {j m : ℕ}
    (hj : j ≤ m) : (fps pts m).take j = fps pts j := by
  cases j with
  | zero => simp [fps]
  | succ j =>
    obtain ⟨m, rfl⟩ : ∃ k, m = k + 1 := ⟨m - 1, by omega⟩
    simp only [fps, List.take_succ_cons]
    rw [fpsAux_take pts j m _ [0] 0 (by omega)]

theorem fps_perm_finRange {n : ℕ} (pts : Fin (n + 1) → Fin 3 → ℚ) :
    (fps pts (n + 1)).Perm (List.finRange (n + 1)) := by
  have hsub : fps pts (n + 1) ⊆ List.finRange (n + 1) :=
    fun x _ => List.mem_finRange x
  have hsp := List.subperm_of_subset (fps_nodup pts (n + 1)) hsub
  exact hsp.perm_of_length_le
    (by rw [List.length_finRange, fps_length pts (le_refl _)])

/-- Claim C3: for every batch element, furthest-point sampling with target
`m ≤ N` returns the greedy sequence: `m` indices, pairwise distinct, the
first being index 0; the first `j` indices (for `j ≤ m`) equal the result of
sampling with target `j`; each selection step picks the not-yet-selected
point maximizing the running minimum distance, ties broken by smallest
index; and on 5 collinear points at coordinates 0,1,2,3,4 with `m = 3` the
result is `[0, 4, 2]`. -/
theorem claim_C3 {n : ℕ} (pts : Fin (n + 1) → Fin 3 → ℚ) (m j : ℕ)
    (hm : m ≤ n + 1) (hj : j ≤ m) (h1 : 1 ≤ m) :
    (fps pts m).length = m ∧
    (fps pts m).Nodup ∧
    (fps pts m).head? = some 0 ∧
    (fps pts m).take j = fps pts j ∧
    (∀ (score : Fin (n + 1) → ℚ) (sel : List (Fin (n + 1)))
        (x : Fin (n + 1)),
      pickNext score sel = some x → x ∉ sel ∧
        ∀ i, i ∉ sel → score i ≤ score x ∧ (score i = score x → x ≤ i)) ∧
    fps linePts 3 = [0, 4, 2] := by
  obtain ⟨m, rfl⟩ : ∃ k, m = k + 1 := ⟨m - 1, by omega⟩
  refine ⟨fps_length pts hm, fps_nodup pts _, rfl, fps_take pts hj,
    fun score sel x h => pickNext_spec h, ?_⟩
  norm_num +decide [fps, fpsAux, pickNext, pickBest, linePts, sqd3,
    fpsInitVal, List.finRange, List.filter]

theorem claim_C3_witness :
    (fps linePts 3).length = 3 ∧
    (fps linePts 3).Nodup ∧
    (fps linePts 3).head? = some 0 ∧
    (fps linePts 3).take 2 = fps linePts 2 ∧
    (∀ (score : Fin 5 → ℚ) (sel : List (Fin 5)) (x : Fin 5),
      pickNext score sel = some x → x ∉ sel ∧
        ∀ i, i ∉ sel → score i ≤ score x ∧ (score i = score x → x ≤ i)) ∧
    fps linePts 3 = [0, 4, 2] :=
  claim_C3 linePts 3 2 (by decide) (by decide) (by decide)

/-- Claim C5: the checked `furthest_point_sample` fails with
`InvalidShapeError` exactly when the points' last coordinate axis is not
size 3, fails with `InsufficientPointsError` (given a 3D shape) exactly when
`m > N`, and at the boundary `m = N` succeeds and returns a full permutation
of `[0, N)`. -/
theorem claim_C5 {n : ℕ} (lastAxis m : ℕ)
    (pts : Fin (n + 1) → Fin 3 → ℚ) :
    (furthestPointSampleChecked lastAxis m pts =
        Except.error FPSError.invalidShape ↔ lastAxis ≠ 3) ∧
    (lastAxis = 3 →
      (furthestPointSampleChecked lastAxis m pts =
          Except.error FPSError.insufficientPoints ↔ m > n + 1)) ∧
    furthestPointSampleChecked 3 (n + 1) pts = Except.ok (fps pts (n + 1)) ∧
    (fps pts (n + 1)).Perm (List.finRange (n + 1)) := by
  refine ⟨?_, ?_, ?_, fps_perm_finRange pts⟩
  · by_cases h : lastAxis = 3
    · subst h
      simp only [furthestPointSampleChecked]
      by_cases hm : m ≤ n + 1 <;> simp [hm]
    · simp [furthestPointSampleChecked, h]
  · intro h
    subst h
    simp only [furthestPointSampleChecked]
    by_cases hm : m ≤ n + 1 <;> simp [hm] <;> omega
  · simp [furthestPointSampleChecked]

/-- Claim C6 (counterexample): the running-minimum buffer of
`FurthestPointSampling.forward` is not initialized to +infinity — at batch
element 0, point 0 of a 1×1 buffer its value is the finite `1e10`, not
`⊤`. -/
theorem claim_C6_counterexample :
    ¬ fpsTempInit 1 1 0 0 = (⊤ : WithTop ℚ) := by
  simp [fpsTempInit]

/-- Claim C6 (amended): at the start of furthest-point sampling the running
"minimum distance to selected set" buffer is initialized, for every point of
every batch element, to the finite sentinel `1e10` (the value
`torch.full([B, N], 1e10)` writes), not to +infinity; this is the same value
the sampling loop starts from. -/
theorem claim_C6_amended {B N : ℕ} (b : Fin B) (i : Fin N) :
    fpsTempInit B N b i = ((10 ^ 10 : ℚ) : WithTop ℚ) ∧
      fpsInitVal = 10 ^ 10 :=
  ⟨rfl, rfl⟩

/-! ## Lemmas about the nearest-neighbor search model -/

theorem distIdxLe_fst_le {N : ℕ} {a b : ℚ × Fin N} (h : distIdxLe a b) :
    a.1 ≤ b.1 := by
  rcases h with h | ⟨h, _⟩
  · exact le_of_lt h
  · exact le_of_eq h

theorem knnSorted_sorted {N : ℕ} (pts : Fin N → Fin 3 → ℚ)
    (q : Fin 3 → ℚ) : (knnSorted pts q).Sorted distIdxLe :=
  List.sorted_insertionSort distIdxLe (knnPairs pts q)

theorem knnSorted_perm {N : ℕ} (pts : Fin N → Fin 3 → ℚ) (q : Fin 3 → ℚ) :
    (knnSorted pts q).Perm (knnPairs pts q) :=
  List.perm_insertionSort distIdxLe (knnPairs pts q)

theorem knnSorted_length {N : ℕ} (pts : Fin N → Fin 3 → ℚ)
    (q : Fin 3 → ℚ) : (knnSorted pts q).length = N := by
  rw [(knnSorted_perm pts q).length_eq]
  simp [knnPairs]

theorem knnPairs_map_snd {N : ℕ} (pts : Fin N → Fin 3 → ℚ)
    (q : Fin 3 → ℚ) : (knnPairs pts q).map Prod.snd = List.finRange N := by
  simp [knnPairs, List.map_map, Function.comp_def]

theorem mem_knnSorted {N : ℕ} {pts : Fin N → Fin 3 → ℚ} {q : Fin 3 → ℚ}
    {p : ℚ × Fin N} (h : p ∈ knnSorted pts q) :
    p.1 = sqd3 q (pts p.2) := by
  have := (knnSorted_perm pts q).mem_iff.mp h
  simp only [knnPairs, List.mem_map] at this
  obtain ⟨i, _, rfl⟩ := this
  rfl

theorem knnSorted_map_fst_sorted {N : ℕ} (pts : Fin N → Fin 3 → ℚ)
    (q : Fin 3 → ℚ) :
    ((knnSorted pts q).map Prod.fst).Sorted (· ≤ ·) := by
  refine List.Pairwise.map Prod.fst (fun a b h => distIdxLe_fst_le h)
    (knnSorted_sorted pts q)

/-- Claim C2: for `k ≤ N`, one invocation of the search kernel returns
exactly `k` pairs; the pairs are sorted by (squared distance, index) — in
particular the distances are non-decreasing along the `k` axis and exact
distance ties appear in ascending index order; every returned index lies in
`[0, N)`; every returned distance is the exact squared Euclidean distance
between the query and the indexed reference point; every returned pair
precedes (in the distance-then-index order) every pair the search did not
return, and together the returned and not-returned pairs are exactly the `N`
reference pairs; the batched forward applies this kernel to each batch
element and query independently. -/
theorem claim_C2 {B M N : ℕ} (pts : Fin N → Fin 3 → ℚ) (q : Fin 3 → ℚ)
    (k : ℕ) (hk : k ≤ N)
    (query : Fin B → Fin M → Fin 3 → ℚ)
    (points : Fin B → Fin N → Fin 3 → ℚ) (b : Fin B) (mq : Fin M) :
    (knnQuery pts q k).length = k ∧
    (knnQuery pts q k).Sorted distIdxLe ∧
    ((knnQuery pts q k).map Prod.fst).Sorted (· ≤ ·) ∧
    (∀ p ∈ knnQuery pts q k, p.2.val < N ∧ p.1 = sqd3 q (pts p.2)) ∧
    (∀ p ∈ knnQuery pts q k, ∀ p2 ∈ (knnSorted pts q).drop k,
      distIdxLe p p2) ∧
    (knnQuery pts q k ++ (knnSorted pts q).drop k).Perm (knnPairs pts q) ∧
    (knnForward k query points).1 b mq =
      (knnQuery (points b) (query b mq) k).map Prod.snd ∧
    (knnForward k query points).2 b mq =
      (knnQuery (points b) (query b mq) k).map Prod.fst := by
  refine ⟨?_, ?_, ?_, ?_, ?_, ?_, rfl, rfl⟩
  · rw [knnQuery, List.length_take, knnSorted_length]
    omega
  · exact (knnSorted_sorted pts q).sublist (List.take_sublist k _)
  · refine List.Pairwise.map Prod.fst (fun a b h => distIdxLe_fst_le h) ?_
    exact (knnSorted_sorted pts q).sublist (List.take_sublist k _)
  · intro p hp
    have hmem : p ∈ knnSorted pts q :=
      List.mem_of_mem_take hp
    exact ⟨p.2.isLt, mem_knnSorted hmem⟩
  · intro p hp p2 hp2
    exact (knnSorted_sorted pts q).rel_of_mem_take_of_mem_drop hp hp2
  · rw [knnQuery, List.take_append_drop]
    exact knnSorted_perm pts q

theorem claim_C2_witness :
    (knnQuery linePts (linePts 0) 2).length = 2 ∧
    (knnQuery linePts (linePts 0) 2).Sorted distIdxLe ∧
    ((knnQuery linePts (linePts 0) 2).map Prod.fst).Sorted (· ≤ ·) ∧
    (∀ p ∈ knnQuery linePts (linePts 0) 2,
      p.2.val < 5 ∧ p.1 = sqd3 (linePts 0) (linePts p.2)) ∧
    (∀ p ∈ knnQuery linePts (linePts 0) 2,
      ∀ p2 ∈ (knnSorted linePts (linePts 0)).drop 2, distIdxLe p p2) ∧
    (knnQuery linePts (linePts 0) 2 ++
      (knnSorted linePts (linePts 0)).drop 2).Perm
      (knnPairs linePts (linePts 0)) ∧
    (knnForward 2 (fun (_ : Fin 1) (_ : Fin 1) => linePts 0)
        (fun (_ : Fin 1) => linePts)).1 0 0 =
      (knnQuery linePts (linePts 0) 2).map Prod.snd ∧
    (knnForward 2 (fun (_ : Fin 1) (_ : Fin 1) => linePts 0)
        (fun (_ : Fin 1) => linePts)).2 0 0 =
      (knnQuery linePts (linePts 0) 2).map Prod.fst :=
  claim_C2 linePts (linePts 0) 2 (by decide)
    (fun (_ : Fin 1) (_ : Fin 1) => linePts 0) (fun (_ : Fin 1) => linePts)
    0 0

/-- Claim C4: the checked nearest-neighbor search fails with
`InsufficientPointsError` exactly when `k > N`, and the boundary `k = N`
succeeds, returning all `N` reference points sorted by distance (the
returned indices are a permutation of `[0, N)` and the distances are
non-decreasing). -/
theorem claim_C4 {N : ℕ} (k : ℕ) (pts : Fin N → Fin 3 → ℚ)
    (q : Fin 3 → ℚ) :
    (knnSearchChecked k pts q = Except.error KNNError.insufficientPoints ↔
      k > N) ∧
    knnSearchChecked N pts q = Except.ok (knnSorted pts q) ∧
    ((knnSorted pts q).map Prod.snd).Perm (List.finRange N) ∧
    ((knnSorted pts q).map Prod.fst).Sorted (· ≤ ·) := by
  refine ⟨?_, ?_, ?_, knnSorted_map_fst_sorted pts q⟩
  · simp only [knnSearchChecked]
    by_cases hk : k ≤ N <;> simp [hk] <;> omega
  · simp only [knnSearchChecked, le_refl, if_true]
    rw [knnQuery, List.take_of_length_le (le_of_eq (knnSorted_length pts q))]
  · rw [← knnPairs_map_snd pts q]
    exact (knnSorted_perm pts q).map Prod.snd

/-! ## Lemmas about the gather/scatter model -/

theorem gatherBackward_foldl {B C N M : ℕ} (idx : Fin B → Fin M → Fin N)
    (gout : Fin B → Fin C → Fin M → ℚ) (b : Fin B) (c : Fin C) (n : Fin N) :
    ∀ (L : List (Fin M)) (init : Fin B → Fin C → Fin N → ℚ),
      (L.foldl
        (fun acc j => fun b c n =>
          if idx b j = n then acc b c n + gout b c j else acc b c n)
        init) b c n =
      init b c n +
        ((L.filter (fun j => decide (idx b j = n))).map
          (fun j => gout b c j)).sum := by
  intro L
  induction L with
  | nil => intro init; simp
  | cons a L ih =>
    intro init
    simp only [List.foldl_cons, List.filter_cons]
    by_cases ha : idx b a = n
    · rw [ih]
      simp only [ha, decide_True, if_true, List.map_cons, List.sum_cons]
      ring
    · rw [ih]
      simp [ha]

theorem gatherBackward_eq {B C N M : ℕ} (idx : Fin B → Fin M → Fin N)
    (gout : Fin B → Fin C → Fin M → ℚ) (b : Fin B) (c : Fin C) (n : Fin N) :
    gatherBackward idx gout b c n =
      (((List.finRange M).filter (fun j => decide (idx b j = n))).map
        (fun j => gout b c j)).sum := by
  rw [gatherBackward, gatherBackward_foldl]
  simp

theorem sum_map_one {α : Type} (l : List α) :
    (l.map (fun _ => (1 : ℚ))).sum = l.length := by
  induction l with
  | nil => simp
  | cons a l ih => simp [ih, add_comm]

/-- Claim C1: the backward pass of the gather operation produces, for the
`(B, C, N)`-shaped `grad_features`, at every `(b, c, n)` the sum of
`grad_output[b, c, j]` over exactly the positions `j` with
`index[b, j] = n` (accumulated from an all-zeros start, never overwritten);
in particular with an all-ones `grad_output` the entry equals the number of
positions `j` referencing `n`, and with an all-zeros `grad_output` it stays
zero. -/
theorem claim_C1 {B C N M : ℕ} (idx : Fin B → Fin M → Fin N)
    (gout : Fin B → Fin C → Fin M → ℚ) (b : Fin B) (c : Fin C) (n : Fin N) :
    gatherBackward idx gout b c n =
      (((List.finRange M).filter (fun j => decide (idx b j = n))).map
        (fun j => gout b c j)).sum ∧
    gatherBackward idx (fun _ _ _ => 1) b c n =
      (((List.finRange M).filter (fun j => decide (idx b j = n))).length :
        ℚ) ∧
    gatherBackward idx (fun _ _ _ => 0) b c n = 0 := by
  refine ⟨gatherBackward_eq idx gout b c n, ?_, ?_⟩
  · rw [gatherBackward_eq, sum_map_one]
  · rw [gatherBackward_eq]
    simp

/-- Claim C8: every gradient-relevant output is explicitly classified:
`KNN.forward` marks both its outputs (indices and distances)
non-differentiable, `FurthestPointSampling.forward` marks its index output
non-differentiable, and `GatherFunction` registers a backward rule whose
returned gradient for the `idx` argument is `None` (a gradient is returned
only for `features`). -/
theorem claim_C8 {B C N M : ℕ} (idx : Fin B → Fin M → Fin N)
    (gout : Fin B → Fin C → Fin M → ℚ) :
    knnForwardOutputClasses =
      (OutputGradClass.markedNonDifferentiable,
       OutputGradClass.markedNonDifferentiable) ∧
    fpsForwardOutputClass = OutputGradClass.markedNonDifferentiable ∧
    gatherOutputClass = OutputGradClass.hasBackward ∧
    (gatherBackwardReturn idx gout).2 = none ∧
    (gatherBackwardReturn idx gout).1 = gatherBackward idx gout :=
  ⟨rfl, rfl, rfl, rfl, rfl⟩

/-- Claim C7: the neighborhood-grouping operation returns identical outputs
(grouped neighbors, indices, distances) for any two values of its `unique`
flag, in both layouts; and the index and distance outputs of the search are
passed through to the caller unchanged (no deduplication is applied). -/
theorem claim_C7 {B M N : ℕ} (k : ℕ) (queryT : Fin B → Fin M → Fin 3 → ℚ)
    (pointsT : Fin B → Fin N → Fin 3 → ℚ)
    (query : Fin B → Fin 3 → Fin M → ℚ)
    (points : Fin B → Fin 3 → Fin N → ℚ) (u v : Bool) :
    groupKNN k queryT pointsT u = groupKNN k queryT pointsT v ∧
    groupKNN_NCHW k query points u = groupKNN_NCHW k query points v ∧
    (groupKNN k queryT pointsT u).2.1 = (knnForward k queryT pointsT).1 ∧
    (groupKNN k queryT pointsT u).2.2 = (knnForward k queryT pointsT).2 ∧
    (groupKNN_NCHW k query points u).2.1 =
      (knnForward k (fun b m d => query b d m)
        (fun b i d => points b d i)).1 ∧
    (groupKNN_NCHW k query points u).2.2 =
      (knnForward k (fun b m d => query b d m)
        (fun b i d => points b d i)).2 :=
  ⟨rfl, rfl, rfl, rfl, rfl, rfl⟩

/-- Claim C10: the public `furthest_point_sample` wrapper returns the
`(B, m)` sampled indices together with the sampled point coordinates, and
the coordinates satisfy `sampled_pc[b, :, j] = xyz[b, :, idx[b, j]]` —
channel-first when `NCHW` is true, transposed back to channel-last when
`NCHW` is false. -/
theorem claim_C10 {B n : ℕ} (xyzCF : Fin B → Fin 3 → Fin (n + 1) → ℚ)
    (xyzCL : Fin B → Fin (n + 1) → Fin 3 → ℚ) (m j : ℕ) (b : Fin B)
    (c : Fin 3) (hm : m ≤ n + 1) :
    ((furthestPointSampleNCHW xyzCF m).1 b).length = m ∧
    (furthestPointSampleNCHW xyzCF m).1 b =
      fps (fun i d => xyzCF b d i) m ∧
    ((furthestPointSampleNCHW xyzCF m).2 b c)[j]? =
      (((furthestPointSampleNCHW xyzCF m).1 b)[j]?).map
        (fun i => xyzCF b c i) ∧
    ((furthestPointSampleNLC xyzCL m).2 b)[j]? =
      (((furthestPointSampleNLC xyzCL m).1 b)[j]?).map
        (fun i => fun d => xyzCL b i d) := by
  refine ⟨fps_length _ hm, rfl, ?_, ?_⟩
  · simp [furthestPointSampleNCHW, gatherPointsList, List.getElem?_map]
  · simp [furthestPointSampleNLC, List.getElem?_map]

theorem claim_C10_witness :
    ((furthestPointSampleNCHW (fun (_ : Fin 1) d i => linePts i d) 3).1
        0).length = 3 ∧
    (furthestPointSampleNCHW (fun (_ : Fin 1) d i => linePts i d) 3).1 0 =
      fps (fun i d => linePts i d) 3 ∧
    ((furthestPointSampleNCHW (fun (_ : Fin 1) d i => linePts i d) 3).2
        0 0)[1]? =
      (((furthestPointSampleNCHW (fun (_ : Fin 1) d i => linePts i d)
          3).1 0)[1]?).map (fun i => linePts i 0) ∧
    ((furthestPointSampleNLC (fun (_ : Fin 1) => linePts) 3).2 0)[1]? =
      (((furthestPointSampleNLC (fun (_ : Fin 1) => linePts) 3).1
          0)[1]?).map (fun i => fun d => linePts i d) :=
  claim_C10 (fun _ d i => linePts i d) (fun _ => linePts) 3 1 0 0
    (by decide)

/-! ## Lemmas about point-batch normalization -/

theorem centeredCL_sum {B n : ℕ} (p : Fin B → Fin (n + 1) → Fin 3 → ℝ)
    (b : Fin B) (d : Fin 3) : ∑ i, centeredCL p b i d = 0 := by
  have hne : ((n : ℝ) + 1) ≠ 0 := by positivity
  simp only [centeredCL, centroidCL]
  rw [Finset.sum_sub_distrib, Finset.sum_const, Finset.card_univ,
    Fintype.card_fin, nsmul_eq_mul]
  push_cast
  field_simp

theorem ptNormCL_le_furthestCL {B n : ℕ}
    (p : Fin B → Fin (n + 1) → Fin 3 → ℝ) (b : Fin B) (i : Fin (n + 1)) :
    ptNormCL p b i ≤ furthestCL p b :=
  Finset.le_sup' (ptNormCL p b) (Finset.mem_univ i)

theorem furthestCL_pos {B n : ℕ} (p : Fin B → Fin (n + 1) → Fin 3 → ℝ)
    (b : Fin B) (h : ∃ i d, p b i d ≠ centroidCL p b d) :
    0 < furthestCL p b := by
  obtain ⟨i, d, hid⟩ := h
  have hc : centeredCL p b i d ≠ 0 := sub_ne_zero.mpr hid
  have hpos : 0 < ∑ d2, centeredCL p b i d2 ^ 2 := by
    refine Finset.sum_pos' (fun d2 _ => sq_nonneg _)
      ⟨d, Finset.mem_univ d, pow_two_pos_of_ne_zero hc⟩
  exact lt_of_lt_of_le (Real.sqrt_pos.mpr hpos)
    (ptNormCL_le_furthestCL p b i)

theorem normalizeCL_recon {B n : ℕ} (p : Fin B → Fin (n + 1) → Fin 3 → ℝ)
    (b : Fin B) (h : ∃ i d, p b i d ≠ centroidCL p b d) (i : Fin (n + 1))
    (d : Fin 3) :
    (normalizeCL p).1 b i d * (normalizeCL p).2.2 b +
      (normalizeCL p).2.1 b d = p b i d := by
  have hf := (furthestCL_pos p b h).ne'
  simp only [normalizeCL]
  rw [div_mul_cancel₀ _ hf]
  simp [centeredCL]

theorem normalizeCL_mean {B n : ℕ} (p : Fin B → Fin (n + 1) → Fin 3 → ℝ)
    (b : Fin B) (d : Fin 3) :
    (∑ i, (normalizeCL p).1 b i d) / (n + 1) = 0 := by
  simp only [normalizeCL]
  rw [← Finset.sum_div, centeredCL_sum]
  simp

theorem normalizeCL_ptNorm {B n : ℕ} (p : Fin B → Fin (n + 1) → Fin 3 → ℝ)
    (b : Fin B) (hf : 0 < furthestCL p b) (i : Fin (n + 1)) :
    Real.sqrt (∑ d, (normalizeCL p).1 b i d ^ 2) =
      ptNormCL p b i / furthestCL p b := by
  simp only [normalizeCL, div_pow]
  rw [← Finset.sum_div, Real.sqrt_div (by positivity) _,
    Real.sqrt_sq hf.le]
  rfl

theorem normalizeCL_maxnorm {B n : ℕ} (p : Fin B → Fin (n + 1) → Fin 3 → ℝ)
    (b : Fin B) (h : ∃ i d, p b i d ≠ centroidCL p b d) :
    Finset.univ.sup' Finset.univ_nonempty
      (fun i => Real.sqrt (∑ d, (normalizeCL p).1 b i d ^ 2)) = 1 := by
  have hf := furthestCL_pos p b h
  refine le_antisymm ?_ ?_
  · refine Finset.sup'_le _ _ (fun i _ => ?_)
    rw [normalizeCL_ptNorm p b hf i]
    exact (div_le_one hf).mpr (ptNormCL_le_furthestCL p b i)
  · obtain ⟨i0, _, hi0⟩ :=
      Finset.exists_mem_eq_sup' (Finset.univ_nonempty) (ptNormCL p b)
    have h1 : Real.sqrt (∑ d, (normalizeCL p).1 b i0 d ^ 2) = 1 := by
      rw [normalizeCL_ptNorm p b hf i0]
      have hfi : furthestCL p b = ptNormCL p b i0 := hi0
      rw [hfi, div_self]
      rw [← hfi]
      exact hf.ne'
    calc (1 : ℝ) = Real.sqrt (∑ d, (normalizeCL p).1 b i0 d ^ 2) := h1.symm
      _ ≤ _ := Finset.le_sup'
          (fun i => Real.sqrt (∑ d, (normalizeCL p).1 b i d ^ 2))
          (Finset.mem_univ i0)

/-- Claim C9: for every point batch in which, per batch element, some point
differs from the centroid, `normalize_point_batch` returns
`(pc, centroid, furthest_distance)` with `pc * furthest_distance + centroid`
reconstructing the input exactly, the mean of `pc` along the point axis
equal to zero, and the maximum Euclidean norm of the points of `pc` equal
to 1 — in the channel-last and the channel-first layout alike. -/
theorem claim_C9 {B n : ℕ} (p : Fin B → Fin (n + 1) → Fin 3 → ℝ)
    (q : Fin B → Fin 3 → Fin (n + 1) → ℝ)
    (hp : ∀ b, ∃ i d, p b i d ≠ centroidCL p b d)
    (hq : ∀ b, ∃ i d, q b d i ≠ centroidCF q b d) :
    (∀ b i d, (normalizeCL p).1 b i d * (normalizeCL p).2.2 b +
        (normalizeCL p).2.1 b d = p b i d) ∧
    (∀ b d, (∑ i, (normalizeCL p).1 b i d) / (n + 1) = 0) ∧
    (∀ b, Finset.univ.sup' Finset.univ_nonempty
        (fun i => Real.sqrt (∑ d, (normalizeCL p).1 b i d ^ 2)) = 1) ∧
    (∀ b d i, (normalizeCF q).1 b d i * (normalizeCF q).2.2 b +
        (normalizeCF q).2.1 b d = q b d i) ∧
    (∀ b d, (∑ i, (normalizeCF q).1 b d i) / (n + 1) = 0) ∧
    (∀ b, Finset.univ.sup' Finset.univ_nonempty
        (fun i => Real.sqrt (∑ d, (normalizeCF q).1 b d i ^ 2)) = 1) := by
  refine ⟨fun b i d => normalizeCL_recon p b (hp b) i d,
    fun b d => normalizeCL_mean p b d,
    fun b => normalizeCL_maxnorm p b (hp b), ?_, ?_, ?_⟩
  · intro b d i
    exact normalizeCL_recon (fun b i d => q b d i) b (hq b) i d
  · intro b d
    exact normalizeCL_mean (fun b i d => q b d i) b d
  · intro b
    exact normalizeCL_maxnorm (fun b i d => q b d i) b (hq b)

theorem claim_C9_witness :
    (∀ b : Fin 1, ∃ i d, twoPts b i d ≠ centroidCL twoPts b d) ∧
    ((∀ b i d, (normalizeCL twoPts).1 b i d * (normalizeCL twoPts).2.2 b +
        (normalizeCL twoPts).2.1 b d = twoPts b i d) ∧
     (∀ b d, (∑ i, (normalizeCL twoPts).1 b i d) / (((1 : ℕ) : ℝ) + 1) =
        0) ∧
     (∀ b, Finset.univ.sup' Finset.univ_nonempty
        (fun i => Real.sqrt (∑ d, (normalizeCL twoPts).1 b i d ^ 2)) = 1) ∧
     (∀ b d i, (normalizeCF (fun b d i => twoPts b i d)).1 b d i *
          (normalizeCF (fun b d i => twoPts b i d)).2.2 b +
          (normalizeCF (fun b d i => twoPts b i d)).2.1 b d =
        twoPts b i d) ∧
     (∀ b d, (∑ i, (normalizeCF (fun b d i => twoPts b i d)).1 b d i) /
        (((1 : ℕ) : ℝ) + 1) = 0) ∧
     (∀ b, Finset.univ.sup' Finset.univ_nonempty
        (fun i => Real.sqrt
          (∑ d, (normalizeCF (fun b d i => twoPts b i d)).1 b d i ^ 2)) =
        1)) :=
  ⟨fun b => ⟨1, 0, by
      norm_num [twoPts, centroidCL, Fin.sum_univ_succ, Fin.succ_ne_zero]⟩,
   claim_C9 twoPts (fun b d i => twoPts b i d)
    (fun b => ⟨1, 0, by
      norm_num [twoPts, centroidCL, Fin.sum_univ_succ, Fin.succ_ne_zero]⟩)
    (fun b => ⟨1, 0, by
      norm_num [twoPts, centroidCF, Fin.sum_univ_succ, Fin.succ_ne_zero]⟩)⟩

end ThreePU
